import Mathlib

/-!
Verification development for the streaming chat relay in
`src/public/script.js` (server portion, lines 830-1339).

Strings are modelled as `List Char` (one element per UTF-16 code unit of the
JavaScript string; all inputs considered are in the basic plane, where the two
coincide).  Each definition is a direct translation of the corresponding
JavaScript function; the regular-expression based replacements of `cleanTextForTTS` are
modelled by explicit scanners with the exact matching semantics of the
JavaScript regexes involved.
-/

/-- Whitespace characters recognised by the JavaScript `\s` class, `trim()`
and the split behaviour relevant here (ASCII subset). -/
def isWS (c : Char) : Bool :=
  c = ' ' || c = '\t' || c = '\n' || c = '\r' || c = Char.ofNat 11 || c = Char.ofNat 12

/-- Sentence punctuation of the regex `[.!?]` in `chunkTextForTTS`. -/
def isPunct (c : Char) : Bool :=
  c = '.' || c = '!' || c = '?'

/-- Leading-whitespace removal, one half of JavaScript `String.trim()`. -/
def trimStart (s : List Char) : List Char :=
  s.dropWhile (fun c => isWS c)

/-- JavaScript `String.trim()`: drop whitespace from both ends. -/
def trim (s : List Char) : List Char :=
  ((trimStart s).reverse.dropWhile (fun c => isWS c)).reverse

/-- Sequence of non-whitespace characters of a string: the "content" that
whitespace normalization preserves. -/
def contentOf (s : List Char) : List Char :=
  s.filter (fun c => !isWS c)

mutual
/-- Scanner for `text.split(/[.!?]+/)`: currently inside a segment,
accumulating its characters in reverse in `acc`. -/
def splitPunctAux : List Char → List Char → List (List Char)
  | [], acc => [acc.reverse]
  | c :: cs, acc =>
    if isPunct c then splitPunctSkip cs acc.reverse
    else splitPunctAux cs (c :: acc)
/-- Scanner state inside a maximal `[.!?]+` separator run; `seg` is the
segment that the run terminated. -/
def splitPunctSkip : List Char → List Char → List (List Char)
  | [], seg => [seg, []]
  | c :: cs, seg =>
    if isPunct c then splitPunctSkip cs seg
    else seg :: splitPunctAux cs [c]
end

/-- JavaScript `text.split(/[.!?]+/)` (maximal punctuation runs separate the
segments; empty segments are produced at the ends exactly as in JS). -/
def splitPunct (s : List Char) : List (List Char) :=
  splitPunctAux s []

/-- Reconstruction step of `chunkTextForTTS`:
`sentences[i].trim() + (i < sentences.length - 1 ? '.' : '')`. -/
def mkSentences : List (List Char) → List (List Char)
  | [] => []
  | [s] => [trim s]
  | s :: rest => (trim s ++ ['.']) :: mkSentences rest

/-- Greedy sentence-packing loop of `chunkTextForTTS` (first stage), with the
trailing `if (currentChunk.trim().length > 0) chunks.push(currentChunk.trim())`
folded into the base case. -/
def packSentences (maxLength : Nat) : List (List Char) → List Char → List (List Char)
  | [], cur => if (trim cur).isEmpty then [] else [trim cur]
  | s :: rest, cur =>
    if maxLength < cur.length + s.length && 0 < cur.length then
      trim cur :: packSentences maxLength rest s
    else
      packSentences maxLength rest (cur ++ (if 0 < cur.length then [' '] else []) ++ s)

/-- Scanner for JavaScript `chunk.split(' ')` (single-space separator, empty
pieces kept). -/
def splitSpaceAux : List Char → List Char → List (List Char)
  | [], acc => [acc.reverse]
  | c :: cs, acc =>
    if c = ' ' then acc.reverse :: splitSpaceAux cs []
    else splitSpaceAux cs (c :: acc)

/-- JavaScript `chunk.split(' ')`. -/
def splitSpace (s : List Char) : List (List Char) :=
  splitSpaceAux s []

/-- Greedy word-packing loop of `chunkTextForTTS` (second stage), including
the final `if (wordChunk.trim().length > 0) finalChunks.push(wordChunk.trim())`. -/
def packWords (maxLength : Nat) : List (List Char) → List Char → List (List Char)
  | [], cur => if (trim cur).isEmpty then [] else [trim cur]
  | w :: rest, cur =>
    if maxLength < cur.length + w.length + 1 && 0 < cur.length then
      trim cur :: packWords maxLength rest w
    else
      packWords maxLength rest (cur ++ (if 0 < cur.length then [' '] else []) ++ w)

/-- Second stage of `chunkTextForTTS` applied to one first-stage chunk: keep
it if within bounds, otherwise re-split it on word boundaries. -/
def splitLongChunk (maxLength : Nat) (ch : List Char) : List (List Char) :=
  if ch.length ≤ maxLength then [ch] else packWords maxLength (splitSpace ch) []

/-- First stage of `chunkTextForTTS`: the `chunks` array after the sentence
loop (`const sentences = text.split(/[.!?]+/).filter(s => s.trim().length > 0)`
followed by the greedy sentence-packing loop). -/
def firstStage (maxLength : Nat) (text : List Char) : List (List Char) :=
  packSentences maxLength
    (mkSentences ((splitPunct text).filter (fun s => !(trim s).isEmpty))) []

/-- Second stage of `chunkTextForTTS`: the `finalChunks` array built from the
first-stage chunks. -/
def secondStage (maxLength : Nat) (chunks : List (List Char)) : List (List Char) :=
  (chunks.map (splitLongChunk maxLength)).flatten

/-- Model of `chunkTextForTTS(text, maxLength)` from `src/public/script.js`
lines 890-944, including the final
`finalChunks.length > 0 ? finalChunks : [text.substring(0, maxLength)]`. -/
def chunkTextForTTS (text : List Char) (maxLength : Nat) : List (List Char) :=
  if text.length ≤ maxLength then [text]
  else if (secondStage maxLength (firstStage maxLength text)).isEmpty then
    [text.take maxLength]
  else secondStage maxLength (firstStage maxLength text)

/-! Basic facts about `trim` and the splitters. -/

theorem trim_length_le (s : List Char) : (trim s).length ≤ s.length := by
  have h1 : (trimStart s).length ≤ s.length := (List.dropWhile_sublist _).length_le
  have h2 : ((trimStart s).reverse.dropWhile (fun c => isWS c)).length ≤ (trimStart s).reverse.length :=
    (List.dropWhile_sublist _).length_le
  simpa [trim] using le_trans (by simpa using h2) (by simpa using h1)

theorem mem_trim {c : Char} {s : List Char} (h : c ∈ trim s) : c ∈ s := by
  have h1 : c ∈ (trimStart s).reverse.dropWhile (fun c => isWS c) := by
    simpa [trim] using h
  have h2 : c ∈ trimStart s := by
    have := (List.dropWhile_sublist (l := (trimStart s).reverse) (fun c => isWS c)).subset h1
    simpa using this
  exact (List.dropWhile_sublist (l := s) (fun c => isWS c)).subset h2

theorem splitSpaceAux_no_space {s acc : List Char} (hacc : ∀ c ∈ acc, c ≠ ' ')
    {w : List Char} (hw : w ∈ splitSpaceAux s acc) : ∀ c ∈ w, c ≠ ' ' := by
  induction s generalizing acc with
  | nil =>
    simp only [splitSpaceAux, List.mem_singleton] at hw
    subst hw
    intro c hc
    exact hacc c (by simpa using hc)
  | cons a s ih =>
    simp only [splitSpaceAux] at hw
    split at hw
    · rename_i ha
      rcases List.mem_cons.mp hw with hw1 | hw1
      · subst hw1
        intro c hc
        exact hacc c (by simpa using hc)
      · exact ih (by simp) hw1
    · rename_i ha
      refine ih ?_ hw
      intro c hc
      rcases List.mem_cons.mp hc with h | h
      · subst h
        exact ha
      · exact hacc c h

theorem splitSpace_no_space {s : List Char} {w : List Char} (hw : w ∈ splitSpace s) :
    ∀ c ∈ w, c ≠ ' ' :=
  splitSpaceAux_no_space (by simp) hw

/-! Length bound for the word-packing stage (claim C4). -/

theorem packWords_bound {maxLength : Nat} {ws : List (List Char)} {cur : List Char}
    (hws : ∀ w ∈ ws, ∀ c ∈ w, c ≠ ' ')
    (hcur : cur.length ≤ maxLength ∨ ∀ c ∈ cur, c ≠ ' ')
    {u : List Char} (hu : u ∈ packWords maxLength ws cur) :
    u.length ≤ maxLength ∨ ∀ c ∈ u, c ≠ ' ' := by
  induction ws generalizing cur with
  | nil =>
    simp only [packWords] at hu
    split at hu
    · simp at hu
    · simp only [List.mem_singleton] at hu
      subst hu
      rcases hcur with h | h
      · exact Or.inl (le_trans (trim_length_le cur) h)
      · exact Or.inr fun c hc => h c (mem_trim hc)
  | cons w rest ih =>
    simp only [packWords] at hu
    split at hu
    · rename_i hcond
      simp only [Bool.and_eq_true, decide_eq_true_eq] at hcond
      rcases List.mem_cons.mp hu with hu1 | hu1
      · subst hu1
        rcases hcur with h | h
        · exact Or.inl (le_trans (trim_length_le cur) h)
        · exact Or.inr fun c hc => h c (mem_trim hc)
      · exact ih (fun v hv => hws v (List.mem_cons_of_mem _ hv))
          (Or.inr (hws w (List.mem_cons_self _ _))) hu1
    · rename_i hcond
      simp only [Bool.and_eq_true, decide_eq_true_eq] at hcond
      refine ih (fun v hv => hws v (List.mem_cons_of_mem _ hv)) ?_ hu
      by_cases hc0 : 0 < cur.length
      · left
        have hle : cur.length + w.length + 1 ≤ maxLength := by
          rcases Nat.lt_or_ge maxLength (cur.length + w.length + 1) with h | h
          · exact absurd ⟨h, hc0⟩ hcond
          · exact h
        rw [if_pos hc0]
        simp only [List.length_append, List.length_cons, List.length_nil]
        omega
      · right
        rw [if_neg hc0]
        have hcur0 : cur = [] := List.length_eq_zero.mp (by omega)
        subst hcur0
        intro c hc
        simp only [List.nil_append] at hc
        exact hws w (List.mem_cons_self _ _) c hc

theorem splitLongChunk_bound {maxLength : Nat} {ch u : List Char}
    (hu : u ∈ splitLongChunk maxLength ch) :
    u.length ≤ maxLength ∨ ∀ c ∈ u, c ≠ ' ' := by
  unfold splitLongChunk at hu
  split at hu
  · rename_i h
    simp only [List.mem_singleton] at hu
    subst hu
    exact Or.inl h
  · exact packWords_bound (fun w hw => splitSpace_no_space hw) (Or.inl (by simp)) hu

/-- C4: for every input string and every maxLength, every unit returned by
`chunkTextForTTS` has length at most `maxLength`, except that a unit that is a
single word (it contains no space character) may exceed the bound. -/
theorem chunk_unit_length_bound (text : List Char) (maxLength : Nat)
    (u : List Char) (hu : u ∈ chunkTextForTTS text maxLength) :
    u.length ≤ maxLength ∨ ∀ c ∈ u, c ≠ ' ' := by
  unfold chunkTextForTTS at hu
  split at hu
  · rename_i h
    simp only [List.mem_singleton] at hu
    subst hu
    exact Or.inl h
  · split at hu
    · simp only [List.mem_singleton] at hu
      subst hu
      left
      simp [Nat.min_le_left maxLength text.length]
    · rcases List.mem_flatten.mp hu with ⟨l, hl, hul⟩
      rcases List.mem_map.mp hl with ⟨ch, _, hch⟩
      subst hch
      exact splitLongChunk_bound hul

/-- Witness for `chunk_unit_length_bound` at a concrete input. -/
theorem chunk_unit_length_bound_witness :
    ("ab cd".toList ∈ chunkTextForTTS "ab cd".toList 10) ∧
      ("ab cd".toList.length ≤ 10 ∨ ∀ c ∈ "ab cd".toList, c ≠ ' ') :=
  ⟨by decide, chunk_unit_length_bound "ab cd".toList 10 "ab cd".toList (by decide)⟩

/-! Content preservation (claim C1): the non-whitespace character sequence. -/

theorem contentOf_append (a b : List Char) :
    contentOf (a ++ b) = contentOf a ++ contentOf b := by
  simp [contentOf, List.filter_append]

theorem contentOf_dropWhileWS (s : List Char) :
    contentOf (s.dropWhile (fun c => isWS c)) = contentOf s := by
  induction s with
  | nil => rfl
  | cons c cs ih =>
    by_cases h : isWS c
    · simp [List.dropWhile, h, contentOf, ih]
      simp [contentOf] at ih
      exact ih
    · simp [List.dropWhile, h]

theorem contentOf_reverse (s : List Char) :
    contentOf s.reverse = (contentOf s).reverse := by
  simp [contentOf, List.filter_reverse]

theorem contentOf_trim (s : List Char) : contentOf (trim s) = contentOf s := by
  unfold trim trimStart
  rw [contentOf_reverse, contentOf_dropWhileWS, contentOf_reverse,
    List.reverse_reverse, contentOf_dropWhileWS]

theorem contentOf_nil_of_trim_isEmpty {s : List Char} (h : (trim s).isEmpty = true) :
    contentOf s = [] := by
  rw [← contentOf_trim]
  rw [List.isEmpty_iff.mp h]
  rfl

theorem contentOf_all_ws {s : List Char} (h : contentOf s = []) :
    ∀ c ∈ s, isWS c = true := by
  intro c hc
  have := List.filter_eq_nil_iff.mp h c hc
  simpa using this

theorem packWords_content (maxLength : Nat) (ws : List (List Char)) (cur : List Char) :
    contentOf (packWords maxLength ws cur).flatten
      = contentOf cur ++ (ws.map contentOf).flatten := by
  induction ws generalizing cur with
  | nil =>
    simp only [packWords, List.map_nil, List.flatten_nil, List.append_nil]
    split
    · rename_i h
      rw [contentOf_nil_of_trim_isEmpty h]
      rfl
    · simp [contentOf_trim]
  | cons w rest ih =>
    simp only [packWords]
    split
    · simp only [List.flatten_cons, contentOf_append, contentOf_trim, ih,
        List.map_cons, List.flatten_cons, List.append_assoc]
    · rw [ih]
      simp only [contentOf_append, List.map_cons, List.flatten_cons, List.append_assoc]
      congr 1
      have : contentOf (if 0 < cur.length then [' '] else []) = [] := by
        split <;> simp [contentOf, isWS]
      rw [this]
      simp

theorem splitSpaceAux_content (s acc : List Char) :
    ((splitSpaceAux s acc).map contentOf).flatten = contentOf acc.reverse ++ contentOf s := by
  induction s generalizing acc with
  | nil => simp [splitSpaceAux, contentOf]
  | cons c cs ih =>
    simp only [splitSpaceAux]
    split
    · rename_i h
      subst h
      simp only [List.map_cons, List.flatten_cons, ih, List.reverse_nil]
      have : contentOf (' ' :: cs) = contentOf cs := by simp [contentOf, isWS]
      rw [this]
      rfl
    · rename_i h
      rw [ih]
      rw [List.reverse_cons, contentOf_append]
      have : contentOf (c :: cs) = contentOf [c] ++ contentOf cs := by
        simp [contentOf, List.filter]
        split <;> simp
      rw [this, List.append_assoc]

theorem splitSpace_content (s : List Char) :
    ((splitSpace s).map contentOf).flatten = contentOf s := by
  simpa using splitSpaceAux_content s []

theorem splitLongChunk_content (maxLength : Nat) (ch : List Char) :
    contentOf (splitLongChunk maxLength ch).flatten = contentOf ch := by
  unfold splitLongChunk
  split
  · simp
  · rw [packWords_content, splitSpace_content]
    rfl

theorem packSentences_content (maxLength : Nat) (ss : List (List Char)) (cur : List Char) :
    contentOf (packSentences maxLength ss cur).flatten
      = contentOf cur ++ (ss.map contentOf).flatten := by
  induction ss generalizing cur with
  | nil =>
    simp only [packSentences, List.map_nil, List.flatten_nil, List.append_nil]
    split
    · rename_i h
      rw [contentOf_nil_of_trim_isEmpty h]
      rfl
    · simp [contentOf_trim]
  | cons s rest ih =>
    simp only [packSentences]
    split
    · simp only [List.flatten_cons, contentOf_append, contentOf_trim, ih,
        List.map_cons, List.flatten_cons, List.append_assoc]
    · rw [ih]
      simp only [contentOf_append, List.map_cons, List.flatten_cons, List.append_assoc]
      congr 1
      have : contentOf (if 0 < cur.length then [' '] else []) = [] := by
        split <;> simp [contentOf, isWS]
      rw [this]
      simp

theorem dropWhile_eq_self_of_none {p : Char → Bool} {s : List Char}
    (h : ∀ c ∈ s, p c = false) : s.dropWhile p = s := by
  cases s with
  | nil => rfl
  | cons c cs => simp [List.dropWhile, h c (List.mem_cons_self _ _)]

theorem trim_of_no_ws {s : List Char} (h : ∀ c ∈ s, isWS c = false) : trim s = s := by
  unfold trim trimStart
  rw [dropWhile_eq_self_of_none h]
  rw [dropWhile_eq_self_of_none (fun c hc => h c (List.mem_reverse.mp hc))]
  exact List.reverse_reverse s

theorem splitPunctAux_no_punct {s : List Char} (h : ∀ c ∈ s, isPunct c = false)
    (acc : List Char) : splitPunctAux s acc = [acc.reverse ++ s] := by
  induction s generalizing acc with
  | nil => simp [splitPunctAux]
  | cons c cs ih =>
    rw [splitPunctAux, if_neg (by simp [h c (List.mem_cons_self _ _)])]
    rw [ih (fun d hd => h d (List.mem_cons_of_mem _ hd))]
    simp

theorem splitPunct_no_punct {s : List Char} (h : ∀ c ∈ s, isPunct c = false) :
    splitPunct s = [s] := by
  simpa using splitPunctAux_no_punct h []

theorem splitSpaceAux_all_no_space {s : List Char} (h : ∀ c ∈ s, c ≠ ' ')
    (acc : List Char) : splitSpaceAux s acc = [acc.reverse ++ s] := by
  induction s generalizing acc with
  | nil => simp [splitSpaceAux]
  | cons c cs ih =>
    rw [splitSpaceAux, if_neg (h c (List.mem_cons_self _ _))]
    rw [ih (fun d hd => h d (List.mem_cons_of_mem _ hd))]
    simp

theorem splitSpace_all_no_space {s : List Char} (h : ∀ c ∈ s, c ≠ ' ') :
    splitSpace s = [s] := by
  simpa using splitSpaceAux_all_no_space h []

theorem secondStage_content (maxLength : Nat) (chunks : List (List Char)) :
    contentOf (secondStage maxLength chunks).flatten = contentOf chunks.flatten := by
  induction chunks with
  | nil => rfl
  | cons ch rest ih =>
    unfold secondStage at *
    simp only [List.map_cons, List.flatten_cons, List.flatten_append, contentOf_append, ih]
    rw [splitLongChunk_content]

theorem firstStage_content {text : List Char} (maxLength : Nat)
    (hp : ∀ c ∈ text, isPunct c = false) :
    contentOf (firstStage maxLength text).flatten = contentOf text := by
  unfold firstStage
  rw [splitPunct_no_punct hp]
  have h0 : contentOf [] = [] := rfl
  by_cases h : (trim text).isEmpty
  · rw [List.filter_cons, if_neg (by simp [h])]
    simp only [List.filter_nil, mkSentences]
    rw [packSentences_content]
    simp only [List.map_nil, List.flatten_nil, List.append_nil, h0]
    exact (contentOf_nil_of_trim_isEmpty h).symm
  · rw [List.filter_cons, if_pos (by simp [h])]
    simp only [List.filter_nil, mkSentences]
    rw [packSentences_content]
    simp only [List.map_cons, List.map_nil, List.flatten_cons, List.flatten_nil,
      List.append_nil, h0, List.nil_append]
    exact contentOf_trim text

theorem chunkTextForTTS_content {text : List Char} (maxLength : Nat)
    (hp : ∀ c ∈ text, isPunct c = false) :
    contentOf (chunkTextForTTS text maxLength).flatten = contentOf text := by
  unfold chunkTextForTTS
  split
  · simp
  · split
    · rename_i hfe
      have hctext : contentOf text = [] := by
        rw [← firstStage_content maxLength hp, ← secondStage_content maxLength]
        rw [List.isEmpty_iff.mp hfe]
        rfl
      simp only [List.flatten_cons, List.flatten_nil, List.append_nil]
      rw [hctext]
      refine List.filter_eq_nil_iff.mpr ?_
      intro a ha
      have := contentOf_all_ws hctext a (List.mem_of_mem_take ha)
      simp [this]
    · rw [secondStage_content, firstStage_content maxLength hp]

theorem chunkTextForTTS_single_word {w : List Char} (maxLength : Nat)
    (hws : ∀ c ∈ w, isWS c = false) (hp : ∀ c ∈ w, isPunct c = false)
    (hne : w ≠ []) (hlong : maxLength < w.length) :
    chunkTextForTTS w maxLength = [w] := by
  have htrim : trim w = w := trim_of_no_ws hws
  have hwe : w.isEmpty = false := by
    cases w with
    | nil => exact absurd rfl hne
    | cons a l => rfl
  have hnospace : ∀ c ∈ w, c ≠ ' ' := by
    intro c hc he
    have := hws c hc
    rw [he] at this
    simp [isWS] at this
  have harg : ([] : List Char) ++ (if 0 < ([] : List Char).length then [' '] else []) ++ w = w := by
    simp
  have hfs : firstStage maxLength w = [w] := by
    unfold firstStage
    rw [splitPunct_no_punct hp, List.filter_cons, if_pos (by simp [htrim, hwe])]
    simp only [List.filter_nil, mkSentences, htrim]
    rw [packSentences, if_neg (by simp), harg, packSentences, htrim, hwe]
    simp
  have hpw : packWords maxLength [w] [] = [w] := by
    rw [packWords, if_neg (by simp), harg, packWords, htrim, hwe]
    simp
  have hss : secondStage maxLength [w] = [w] := by
    unfold secondStage splitLongChunk
    rw [List.map_cons, List.map_nil]
    rw [if_neg (by omega)]
    rw [splitSpace_all_no_space hnospace, hpw]
    simp
  unfold chunkTextForTTS
  rw [if_neg (by omega), hfs, hss]
  simp [hwe]

/-- C1 (amended): for punctuation-free input the concatenation of the units
returned by `chunkTextForTTS` preserves the non-whitespace character sequence
of the input exactly, and a single word (no whitespace, no sentence
punctuation) longer than `maxLength` is returned whole as its own single
oversized unit.  (For inputs containing `.`/`!`/`?` the code rewrites
punctuation runs and may truncate all-punctuation inputs, see the
counterexample.) -/
theorem chunk_content_roundtrip :
    (∀ (text : List Char) (maxLength : Nat), (∀ c ∈ text, isPunct c = false) →
        contentOf (chunkTextForTTS text maxLength).flatten = contentOf text)
    ∧ (∀ (w : List Char) (maxLength : Nat), (∀ c ∈ w, isWS c = false) →
        (∀ c ∈ w, isPunct c = false) → w ≠ [] → maxLength < w.length →
        chunkTextForTTS w maxLength = [w]) :=
  ⟨fun _ maxLength hp => chunkTextForTTS_content maxLength hp,
   fun _ maxLength hws hp hne hlong => chunkTextForTTS_single_word maxLength hws hp hne hlong⟩

/-- C1 counterexample: on `"aa! bb."` with `maxLength = 3` the concatenated
units do not reproduce the input even modulo whitespace (`!` is rewritten to
`.` and the final `.` is dropped), and an all-punctuation input is truncated
to `maxLength` characters, losing content. -/
theorem chunk_roundtrip_cex :
    contentOf (chunkTextForTTS ("aa! bb.".toList) 3).flatten ≠ contentOf ("aa! bb.".toList)
    ∧ contentOf (chunkTextForTTS ("..........".toList) 3).flatten
        ≠ contentOf ("..........".toList) := by
  decide

/-- Witness for `chunk_content_roundtrip` at concrete inputs. -/
theorem chunk_content_roundtrip_witness :
    contentOf (chunkTextForTTS ("hello world".toList) 5).flatten
        = contentOf ("hello world".toList)
    ∧ chunkTextForTTS ("aaaaaaaa".toList) 3 = ["aaaaaaaa".toList] :=
  ⟨chunk_content_roundtrip.1 _ 5 (by decide),
   chunk_content_roundtrip.2 _ 3 (by decide) (by decide) (by decide) (by decide)⟩

/-!
Model of `cleanTextForTTS` (`src/public/script.js` lines 873-887): a chain of
global regex replacements.  Each replacement is modelled by a left-to-right
scanner with the exact matching semantics of the JavaScript regex (greedy or
lazy as in the source); the scanners use a fuel argument (each step consumes
at least one character, so `length + 1` fuel always suffices) to stay
structurally recursive.
-/

/-- Backtick character (code point 96). -/
def btick : Char := Char.ofNat 96

/-- Length of the run of `#` characters at the head of the list. -/
def leadHash : List Char → Nat
  | [] => 0
  | c :: cs => if c = '#' then 1 + leadHash cs else 0

/-- Scanner for `.replace(/#{1,6}\s/g, '')`: a match at a position exists iff
the maximal hash run there has length 1..6 and is followed by one whitespace
character; the run and that character are removed. -/
def removeHeadersF : Nat → List Char → List Char
  | 0, s => s
  | _ + 1, [] => []
  | fuel + 1, c :: cs =>
    if c = '#' then
      let r := 1 + leadHash cs
      let rest := cs.drop (r - 1)
      if r ≤ 6 && (match rest with | w :: _ => isWS w | [] => false) then
        removeHeadersF fuel rest.tail
      else c :: removeHeadersF fuel cs
    else c :: removeHeadersF fuel cs

def removeHeaders (s : List Char) : List Char := removeHeadersF (s.length + 1) s

/-- Lazy search for the closing `**` of `/\*\*(.*?)\*\*/` (the inner `.` does
not match line terminators). -/
def findBoldEnd : List Char → Option (List Char × List Char)
  | c1 :: c2 :: rest =>
    if c1 = '*' && c2 = '*' then some ([], rest)
    else if c1 = '\n' || c1 = '\r' then none
    else (findBoldEnd (c2 :: rest)).map (fun p => (c1 :: p.1, p.2))
  | _ => none

/-- Scanner for `.replace(/\*\*(.*?)\*\*/g, '$1')`. -/
def removeBoldF : Nat → List Char → List Char
  | 0, s => s
  | _ + 1, [] => []
  | fuel + 1, c1 :: cs =>
    if c1 = '*' then
      match cs with
      | c2 :: cs2 =>
        if c2 = '*' then
          match findBoldEnd cs2 with
          | some (inner, rest) => inner ++ removeBoldF fuel rest
          | none => c1 :: removeBoldF fuel cs
        else c1 :: removeBoldF fuel cs
      | [] => [c1]
    else c1 :: removeBoldF fuel cs

def removeBold (s : List Char) : List Char := removeBoldF (s.length + 1) s

/-- Lazy search for the closing `*` of `/\*(.*?)\*/`. -/
def findItalicEnd : List Char → Option (List Char × List Char)
  | [] => none
  | c :: rest =>
    if c = '*' then some ([], rest)
    else if c = '\n' || c = '\r' then none
    else (findItalicEnd rest).map (fun p => (c :: p.1, p.2))

/-- Scanner for `.replace(/\*(.*?)\*/g, '$1')`. -/
def removeItalicF : Nat → List Char → List Char
  | 0, s => s
  | _ + 1, [] => []
  | fuel + 1, c :: cs =>
    if c = '*' then
      match findItalicEnd cs with
      | some (inner, rest) => inner ++ removeItalicF fuel rest
      | none => c :: removeItalicF fuel cs
    else c :: removeItalicF fuel cs

def removeItalic (s : List Char) : List Char := removeItalicF (s.length + 1) s

/-- Search for the closing backtick of `` /`([^`]+)`/ ``; the content is the
run of non-backtick characters up to it. -/
def findInlineEnd : List Char → Option (List Char × List Char)
  | [] => none
  | c :: rest =>
    if c = btick then some ([], rest)
    else (findInlineEnd rest).map (fun p => (c :: p.1, p.2))

/-- Scanner for ``.replace(/`([^`]+)`/g, '$1')`` ( `[^`]+` requires the
content to be nonempty). -/
def removeInlineF : Nat → List Char → List Char
  | 0, s => s
  | _ + 1, [] => []
  | fuel + 1, c :: cs =>
    if c = btick then
      match findInlineEnd cs with
      | some (inner, rest) =>
        if inner.isEmpty then c :: removeInlineF fuel cs
        else inner ++ removeInlineF fuel rest
      | none => c :: removeInlineF fuel cs
    else c :: removeInlineF fuel cs

def removeInlineCode (s : List Char) : List Char := removeInlineF (s.length + 1) s

/-- Lazy search for the first subsequent ```` ``` ```` fence. -/
def findFenceEnd : List Char → Option (List Char)
  | a :: b :: c :: rest =>
    if a = btick && b = btick && c = btick then some rest
    else findFenceEnd (b :: c :: rest)
  | _ => none

/-- Scanner for ``.replace(/```[\s\S]*?```/g, '')``. -/
def removeBlocksF : Nat → List Char → List Char
  | 0, s => s
  | _ + 1, [] => []
  | fuel + 1, c :: cs =>
    if c = btick then
      match cs with
      | b :: d :: cs2 =>
        if b = btick && d = btick then
          match findFenceEnd cs2 with
          | some rest => removeBlocksF fuel rest
          | none => c :: removeBlocksF fuel cs
        else c :: removeBlocksF fuel cs
      | _ => c :: removeBlocksF fuel cs
    else c :: removeBlocksF fuel cs

def removeCodeBlocks (s : List Char) : List Char := removeBlocksF (s.length + 1) s

/-- Search for the closing `]` of `[^\]]+` (nonempty link label). -/
def findBracketEnd : List Char → Option (List Char × List Char)
  | [] => none
  | c :: rest =>
    if c = ']' then some ([], rest)
    else (findBracketEnd rest).map (fun p => (c :: p.1, p.2))

/-- Search for the closing `)` of `[^)]+` (nonempty link target). -/
def findParenEnd : List Char → Option (List Char × List Char)
  | [] => none
  | c :: rest =>
    if c = ')' then some ([], rest)
    else (findParenEnd rest).map (fun p => (c :: p.1, p.2))

/-- Scanner for `.replace(/\[([^\]]+)\]\([^)]+\)/g, '$1')` (keep link text). -/
def removeLinksF : Nat → List Char → List Char
  | 0, s => s
  | _ + 1, [] => []
  | fuel + 1, c :: cs =>
    if c = '[' then
      match findBracketEnd cs with
      | some (label, rest1) =>
        if label.isEmpty then c :: removeLinksF fuel cs
        else
          match rest1 with
          | p :: rest2 =>
            if p = '(' then
              match findParenEnd rest2 with
              | some (url, rest3) =>
                if url.isEmpty then c :: removeLinksF fuel cs
                else label ++ removeLinksF fuel rest3
              | none => c :: removeLinksF fuel cs
            else c :: removeLinksF fuel cs
          | [] => c :: removeLinksF fuel cs
      | none => c :: removeLinksF fuel cs
    else c :: removeLinksF fuel cs

def removeLinks (s : List Char) : List Char := removeLinksF (s.length + 1) s

mutual
/-- Scanner for `.replace(/\n+/g, ' ')`, outside a newline run. -/
def collapseNL : List Char → List Char
  | [] => []
  | c :: cs => if c = '\n' then ' ' :: skipNL cs else c :: collapseNL cs
/-- Scanner for `.replace(/\n+/g, ' ')`, inside a newline run already
replaced by one space. -/
def skipNL : List Char → List Char
  | [] => []
  | c :: cs => if c = '\n' then skipNL cs else c :: collapseNL cs
end

mutual
/-- Scanner for `.replace(/\s+/g, ' ')`, outside a whitespace run. -/
def collapseWSRun : List Char → List Char
  | [] => []
  | c :: cs => if isWS c then ' ' :: skipWSRun cs else c :: collapseWSRun cs
/-- Scanner for `.replace(/\s+/g, ' ')`, inside a whitespace run already
replaced by one space. -/
def skipWSRun : List Char → List Char
  | [] => []
  | c :: cs => if isWS c then skipWSRun cs else c :: collapseWSRun cs
end

/-- Model of `cleanTextForTTS(text)` from `src/public/script.js` lines
873-887: the replacement chain applied in source order (headers, bold,
italics, inline code, code blocks, links, newlines, whitespace), then
`trim()`. -/
def cleanTextForTTS (text : List Char) : List Char :=
  trim (collapseWSRun (collapseNL (removeLinks (removeCodeBlocks (removeInlineCode
    (removeItalic (removeBold (removeHeaders text))))))))

/-- C10: evaluation of `cleanTextForTTS` showing that inline-code content is
kept with the backticks removed, but the content of a triple-backtick fenced
block is NOT deleted: the inline-code replacement runs first and consumes the
fences' backticks, so the block regex no longer matches and the code text
survives into the sanitized output. -/
theorem clean_fenced_code_eval :
    cleanTextForTTS ("a `b` c".toList) = "a b c".toList
    ∧ cleanTextForTTS ("x ```y``` z".toList) = "x ``y`` z".toList
    ∧ cleanTextForTTS ("x ```y``` z".toList) ≠ "x z".toList := by
  decide

/-!
Model of the `/api/chat` streaming relay (`src/public/script.js` lines
1037-1300).  Events written to the SSE stream are modelled by `Ev`; the
upstream generation stream is a list of `Chunk`s (each one step of the
`for await` loop); `writer.write` never fails in the model (client
disconnection is out of scope), and the per-chunk text-to-speech calls are
modelled by an oracle `synth : Nat → Option (List Char)` giving the audio
payload of each unit or `none` on a per-unit failure (either a thrown call or
a response without `inlineData`, lines 1219-1235).
-/

/-- Stream events (the `type` tags written as SSE frames).  Constant payloads
(the fixed `ttsLoading`, `ttsError` and `error` message strings) are omitted;
the legacy non-chunked `audio` event is never emitted by this endpoint. -/
inductive Ev
  | thinking (content : List Char)
  | code (content lang : List Char)
  | codeResult (content : List Char)
  | search (content : List Char)
  | text (content : List Char)
  | ttsLoading
  | ttsChunkInfo (totalChunks totalLength : Nat)
  | audioChunk (audioData : List Char) (chunkIndex totalChunks : Nat) (isLastChunk : Bool)
  | ttsError
  | complete
  | error
  deriving DecidableEq, Repr

/-- One element of `chunk.candidates[0].content.parts`, classified as by the
if/else chain of the streaming loop (lines 1139-1164).  `textPart []` also
stands for a part with no recognised truthy field, which emits nothing. -/
inductive GPart
  | thought (text : Option (List Char))
  | execCode (code lang : Option (List Char))
  | codeResult (output : Option (List Char))
  | textPart (text : List Char)
  deriving DecidableEq, Repr

/-- JavaScript `x || d` for an optional string field (absent and empty are
both falsy). -/
def jsOr (o : Option (List Char)) (d : List Char) : List Char :=
  match o with
  | none => d
  | some s => if s.isEmpty then d else s

/-- One step of the upstream `for await` loop: the parts of the chunk plus
its `groundingMetadata.webSearchQueries` (empty when absent). -/
structure Chunk where
  parts : List GPart
  webSearchQueries : List (List Char)
  deriving DecidableEq, Repr

/-- JavaScript `Array.join(sep)`. -/
def joinSep (sep : List Char) : List (List Char) → List Char
  | [] => []
  | [x] => x
  | x :: xs => x ++ sep ++ joinSep sep xs

def pythonStr : List Char := "python".toList

def searchedTag : List Char := "Searched: ".toList

def commaSpace : List Char := ", ".toList

/-- Inner loop over `chunk.candidates[0].content.parts`: emits one event per
part (in order) and accumulates `assistantResponse` over `text` parts. -/
def stepParts : List GPart → List Char → List Ev × List Char
  | [], acc => ([], acc)
  | GPart.thought t :: ps, acc =>
    let r := stepParts ps acc
    (Ev.thinking (jsOr t []) :: r.1, r.2)
  | GPart.execCode cd lang :: ps, acc =>
    let r := stepParts ps acc
    (Ev.code (jsOr cd []) (jsOr lang pythonStr) :: r.1, r.2)
  | GPart.codeResult o :: ps, acc =>
    let r := stepParts ps acc
    (Ev.codeResult (jsOr o []) :: r.1, r.2)
  | GPart.textPart t :: ps, acc =>
    if t.isEmpty then stepParts ps acc
    else
      let r := stepParts ps (acc ++ t)
      (Ev.text t :: r.1, r.2)

/-- The streaming loop (lines 1137-1177): per chunk, the part events followed
by a `search` event when the chunk carries nonempty `webSearchQueries`;
returns the events in emission order and the final accumulated response. -/
def relayLoop : List Chunk → List Char → List Ev × List Char
  | [], acc => ([], acc)
  | ch :: rest, acc =>
    let r1 := stepParts ch.parts acc
    let searchEvs := if ch.webSearchQueries.isEmpty then []
      else [Ev.search (searchedTag ++ joinSep commaSpace ch.webSearchQueries)]
    let r2 := relayLoop rest r1.2
    (r1.1 ++ searchEvs ++ r2.1, r2.2)

/-- An upstream fragment: a (non-vacuous) part, or the search-activity
metadata attached to a chunk. -/
inductive Frag
  | part (p : GPart)
  | searchFrag (qs : List (List Char))
  deriving DecidableEq, Repr

/-- The event the relay emits for each fragment. -/
def classify : Frag → Ev
  | .part (.thought t) => .thinking (jsOr t [])
  | .part (.execCode cd lang) => .code (jsOr cd []) (jsOr lang pythonStr)
  | .part (.codeResult o) => .codeResult (jsOr o [])
  | .part (.textPart t) => .text t
  | .searchFrag qs => .search (searchedTag ++ joinSep commaSpace qs)

/-- The fragment carried by a part; a `textPart` with empty (falsy) text is
not a fragment (it carries no prose and the if/else chain skips it). -/
def partFrag : GPart → Option Frag
  | .textPart t => if t.isEmpty then none else some (.part (.textPart t))
  | p => some (.part p)

/-- The ordered fragments of an upstream stream: per chunk, its parts then
its search metadata (when nonempty). -/
def fragmentsOf (chunks : List Chunk) : List Frag :=
  (chunks.map (fun ch =>
    ch.parts.filterMap partFrag ++
      (if ch.webSearchQueries.isEmpty then [] else [Frag.searchFrag ch.webSearchQueries]))).flatten

/-- The prose payload of a fragment (`text` fragments only). -/
def fragText : Frag → Option (List Char)
  | .part (.textPart t) => some t
  | _ => none

theorem stepParts_events (ps : List GPart) (acc : List Char) :
    (stepParts ps acc).1 = (ps.filterMap partFrag).map classify := by
  induction ps generalizing acc with
  | nil => rfl
  | cons p ps ih =>
    cases p with
    | thought t => simp [stepParts, partFrag, classify, ih]
    | execCode cd lang => simp [stepParts, partFrag, classify, ih]
    | codeResult o => simp [stepParts, partFrag, classify, ih]
    | textPart t =>
      by_cases ht : t.isEmpty
      · simp [stepParts, partFrag, ht, ih]
      · simp [stepParts, partFrag, ht, classify, ih]

theorem stepParts_acc (ps : List GPart) (acc : List Char) :
    (stepParts ps acc).2 = acc ++ (((ps.filterMap partFrag).filterMap fragText)).flatten := by
  induction ps generalizing acc with
  | nil => simp [stepParts]
  | cons p ps ih =>
    cases p with
    | thought t => simp [stepParts, partFrag, fragText, ih]
    | execCode cd lang => simp [stepParts, partFrag, fragText, ih]
    | codeResult o => simp [stepParts, partFrag, fragText, ih]
    | textPart t =>
      by_cases ht : t.isEmpty
      · have : t = [] := List.isEmpty_iff.mp ht
        subst this
        simp [stepParts, partFrag, ih]
      · simp [stepParts, partFrag, ht, fragText, ih]

theorem fragmentsOf_cons (ch : Chunk) (rest : List Chunk) :
    fragmentsOf (ch :: rest)
      = (ch.parts.filterMap partFrag
          ++ (if ch.webSearchQueries.isEmpty then []
              else [Frag.searchFrag ch.webSearchQueries]))
        ++ fragmentsOf rest := by
  simp [fragmentsOf]

theorem relayLoop_events (chunks : List Chunk) (acc : List Char) :
    (relayLoop chunks acc).1 = (fragmentsOf chunks).map classify := by
  induction chunks generalizing acc with
  | nil => rfl
  | cons ch rest ih =>
    simp only [relayLoop, fragmentsOf_cons, List.map_append, stepParts_events, ih,
      List.append_assoc]
    congr 1
    by_cases hq : ch.webSearchQueries.isEmpty
    · simp [hq]
    · simp [hq, classify]

theorem relayLoop_acc (chunks : List Chunk) (acc : List Char) :
    (relayLoop chunks acc).2 = acc ++ (((fragmentsOf chunks).filterMap fragText)).flatten := by
  induction chunks generalizing acc with
  | nil => simp [relayLoop, fragmentsOf]
  | cons ch rest ih =>
    simp only [relayLoop, stepParts_acc, ih, fragmentsOf_cons, List.filterMap_append,
      List.flatten_append, List.append_assoc]
    congr 2
    by_cases hq : ch.webSearchQueries.isEmpty
    · simp [hq]
    · simp [hq, fragText]

/-- The scripted upstream stream of the specification's example:
[thinking, code, codeResult, text("Hello "), text("world"), search]. -/
def scriptedStream : List Chunk :=
  [⟨[GPart.thought (some "Think".toList)], []⟩,
   ⟨[GPart.execCode (some "print(1)".toList) none], []⟩,
   ⟨[GPart.codeResult (some "1".toList)], []⟩,
   ⟨[GPart.textPart "Hello ".toList], []⟩,
   ⟨[GPart.textPart "world".toList], []⟩,
   ⟨[], ["quantum computing".toList]⟩]

/-- C6: the relay emits exactly one event per upstream fragment, of the type
matching the fragment's classification, in arrival order (the event list is
the `map` of `classify` over the fragments, with no reordering or dropping),
and the accumulated prose equals the concatenation of exactly the text
fragments; on the scripted stream this yields the six expected events in
order with accumulated prose "Hello world". -/
theorem relay_one_event_per_fragment :
    (∀ chunks : List Chunk,
        (relayLoop chunks []).1 = (fragmentsOf chunks).map classify
        ∧ (relayLoop chunks []).2 = ((fragmentsOf chunks).filterMap fragText).flatten)
    ∧ (relayLoop scriptedStream []).1 =
        [Ev.thinking "Think".toList,
         Ev.code "print(1)".toList "python".toList,
         Ev.codeResult "1".toList,
         Ev.text "Hello ".toList,
         Ev.text "world".toList,
         Ev.search "Searched: quantum computing".toList]
    ∧ (relayLoop scriptedStream []).2 = "Hello world".toList :=
  ⟨fun chunks => ⟨relayLoop_events chunks [], by simpa using relayLoop_acc chunks []⟩,
   by decide, by decide⟩

/-- The per-unit synthesis loop (lines 1202-1236): for each unit index in
order, one synthesis call; on success emit `audioChunk` with the unit's
index, the total and the last-unit flag; on failure (thrown call or missing
audio payload) emit nothing for that unit and continue. -/
def synthLoop (synth : Nat → Option (List Char)) (total : Nat) : List Ev :=
  ((List.range total).map (fun i =>
    match synth i with
    | some a => [Ev.audioChunk a i total (decide (i = total - 1))]
    | none => [])).flatten

/-- The TTS block (lines 1180-1245): guarded by
`tts && assistantResponse.trim()`; emits `ttsLoading`, then — since
segmentation always yields at least one unit — `ttsChunkInfo` with the unit
count and the sanitized length, then the per-unit loop.  (The outer
`ttsError` catch fires only when a stream write itself throws, which the
model excludes.) -/
def ttsBlock (tts : Bool) (resp : List Char) (synth : Nat → Option (List Char)) : List Ev :=
  if tts && !(trim resp).isEmpty then
    Ev.ttsLoading ::
      (if 0 < (chunkTextForTTS (cleanTextForTTS resp) 750).length then
        Ev.ttsChunkInfo (chunkTextForTTS (cleanTextForTTS resp) 750).length
            (cleanTextForTTS resp).length
          :: synthLoop synth (chunkTextForTTS (cleanTextForTTS resp) 750).length
      else [])
  else []

/-- Outcome of the upstream generation stream: it either completes after
delivering its chunks, or throws after a prefix of them. -/
inductive GenResult
  | ok (chunks : List Chunk)
  | fail (pre : List Chunk)

/-- The full event sequence written for one request body run
(lines 1066-1257): on success the relay events, then the TTS block, then
`complete`; when the generation stream throws, the events already emitted
followed by the terminal `error` from the catch. -/
def requestEvents (gen : GenResult) (tts : Bool) (synth : Nat → Option (List Char)) : List Ev :=
  match gen with
  | .ok chunks =>
    (relayLoop chunks []).1 ++ ttsBlock tts (relayLoop chunks []).2 synth ++ [Ev.complete]
  | .fail pre => (relayLoop pre []).1 ++ [Ev.error]

/-- Outcome of the transcription call of the audio branch (lines 1096-1104):
it either returns (with `response.text` possibly absent or empty) or throws. -/
inductive TransResult
  | ok (text : Option (List Char))
  | threw

/-- The request input: exactly one of `message` or `audioData`. -/
inductive ReqInput
  | textMsg (msg : List Char)
  | audioMsg (data : List Char)

def transLabel : List Char := "[Voice message transcription]: ".toList

/-- The new user turn pushed onto the conversation (lines 1106-1116): the
text message itself, or the labelled transcription
(`[Voice message transcription]: ` + (`response.text || ''`)); none when the
transcription call threw (the push is never reached). -/
def newUserTurn : ReqInput → TransResult → Option (List Char)
  | .textMsg m, _ => some m
  | .audioMsg _, .ok t => some (transLabel ++ jsOr t [])
  | .audioMsg _, .threw => none

/-- The events of one request run including the audio branch: a thrown
transcription call propagates to the generic catch (line 1252), which emits
the terminal `error`; otherwise the main generation call proceeds. -/
def processEvents : ReqInput → TransResult → GenResult → Bool →
    (Nat → Option (List Char)) → List Ev
  | .audioMsg _, .threw, _, _, _ => [Ev.error]
  | _, _, gen, tts, synth => requestEvents gen tts synth

/-! Terminal-event facts (claim C7). -/

theorem classify_ne_complete (f : Frag) : classify f ≠ Ev.complete := by
  cases f with
  | part p => cases p <;> simp [classify]
  | searchFrag qs => simp [classify]

theorem classify_ne_error (f : Frag) : classify f ≠ Ev.error := by
  cases f with
  | part p => cases p <;> simp [classify]
  | searchFrag qs => simp [classify]

theorem relay_no_complete (chunks : List Chunk) (acc : List Char) :
    Ev.complete ∉ (relayLoop chunks acc).1 := by
  rw [relayLoop_events]
  intro h
  rcases List.mem_map.mp h with ⟨f, _, hf⟩
  exact classify_ne_complete f hf

theorem relay_no_error (chunks : List Chunk) (acc : List Char) :
    Ev.error ∉ (relayLoop chunks acc).1 := by
  rw [relayLoop_events]
  intro h
  rcases List.mem_map.mp h with ⟨f, _, hf⟩
  exact classify_ne_error f hf

theorem synthLoop_mem {synth : Nat → Option (List Char)} {total : Nat} {e : Ev}
    (he : e ∈ synthLoop synth total) :
    ∃ a i, e = Ev.audioChunk a i total (decide (i = total - 1)) := by
  unfold synthLoop at he
  rcases List.mem_flatten.mp he with ⟨l, hl, hel⟩
  rcases List.mem_map.mp hl with ⟨i, _, hi⟩
  subst hi
  cases h : synth i with
  | none => simp [h] at hel
  | some a =>
    rw [h] at hel
    simp only [List.mem_singleton] at hel
    exact ⟨a, i, hel⟩

theorem ttsBlock_no_complete (tts : Bool) (resp : List Char)
    (synth : Nat → Option (List Char)) : Ev.complete ∉ ttsBlock tts resp synth := by
  unfold ttsBlock
  split
  · intro h
    rcases List.mem_cons.mp h with h1 | h1
    · exact Ev.noConfusion h1
    · split at h1
      · rcases List.mem_cons.mp h1 with h2 | h2
        · exact Ev.noConfusion h2
        · rcases synthLoop_mem h2 with ⟨a, i, hai⟩
          exact Ev.noConfusion hai
      · simp at h1
  · simp

theorem ttsBlock_no_error (tts : Bool) (resp : List Char)
    (synth : Nat → Option (List Char)) : Ev.error ∉ ttsBlock tts resp synth := by
  unfold ttsBlock
  split
  · intro h
    rcases List.mem_cons.mp h with h1 | h1
    · exact Ev.noConfusion h1
    · split at h1
      · rcases List.mem_cons.mp h1 with h2 | h2
        · exact Ev.noConfusion h2
        · rcases synthLoop_mem h2 with ⟨a, i, hai⟩
          exact Ev.noConfusion hai
      · simp at h1
  · simp

theorem requestEvents_ok_count (chunks : List Chunk) (tts : Bool)
    (synth : Nat → Option (List Char)) :
    (requestEvents (GenResult.ok chunks) tts synth).count Ev.complete = 1 := by
  simp only [requestEvents]
  rw [List.count_append, List.count_append]
  rw [List.count_eq_zero.mpr (relay_no_complete chunks []),
    List.count_eq_zero.mpr (ttsBlock_no_complete tts _ synth)]
  rfl

theorem requestEvents_ok_last (chunks : List Chunk) (tts : Bool)
    (synth : Nat → Option (List Char)) :
    (requestEvents (GenResult.ok chunks) tts synth).getLast? = some Ev.complete := by
  simp only [requestEvents]
  exact List.getLast?_concat _

theorem requestEvents_fail_last (chunks : List Chunk) (tts : Bool)
    (synth : Nat → Option (List Char)) :
    (requestEvents (GenResult.fail chunks) tts synth).getLast? = some Ev.error := by
  simp only [requestEvents]
  exact List.getLast?_concat _

theorem requestEvents_fail_no_complete (chunks : List Chunk) (tts : Bool)
    (synth : Nat → Option (List Char)) :
    Ev.complete ∉ requestEvents (GenResult.fail chunks) tts synth := by
  simp only [requestEvents]
  intro h
  rcases List.mem_append.mp h with h1 | h1
  · exact relay_no_complete chunks [] h1
  · simp only [List.mem_singleton] at h1
    exact Ev.noConfusion h1

theorem requestEvents_ok_no_error (chunks : List Chunk) (tts : Bool)
    (synth : Nat → Option (List Char)) :
    Ev.error ∉ requestEvents (GenResult.ok chunks) tts synth := by
  simp only [requestEvents]
  intro h
  rcases List.mem_append.mp h with h1 | h1
  · rcases List.mem_append.mp h1 with h2 | h2
    · exact relay_no_error chunks [] h2
    · exact ttsBlock_no_error tts _ synth h2
  · simp only [List.mem_singleton] at h1
    exact Ev.noConfusion h1

/-- C7: on a successful turn `complete` is emitted exactly once and is the
final event; when the upstream stream fails mid-flight the terminal event is
`error` and `complete` is never emitted on that stream. -/
theorem complete_terminal_event (chunks : List Chunk) (tts : Bool)
    (synth : Nat → Option (List Char)) :
    (requestEvents (GenResult.ok chunks) tts synth).count Ev.complete = 1
    ∧ (requestEvents (GenResult.ok chunks) tts synth).getLast? = some Ev.complete
    ∧ (requestEvents (GenResult.fail chunks) tts synth).getLast? = some Ev.error
    ∧ Ev.complete ∉ requestEvents (GenResult.fail chunks) tts synth :=
  ⟨requestEvents_ok_count chunks tts synth, requestEvents_ok_last chunks tts synth,
   requestEvents_fail_last chunks tts synth, requestEvents_fail_no_complete chunks tts synth⟩

/-! Ordering of audio chunk events (claim C9). -/

/-- The `chunkIndex` values of the `audioChunk` events of an event list, in
emission order. -/
def chunkIndices (evs : List Ev) : List Nat :=
  evs.filterMap (fun e =>
    match e with
    | Ev.audioChunk _ i _ _ => some i
    | _ => none)

theorem synthLoop_indices_aux (synth : Nat → Option (List Char)) (total : Nat)
    (l : List Nat) :
    chunkIndices ((l.map (fun i =>
      match synth i with
      | some a => [Ev.audioChunk a i total (decide (i = total - 1))]
      | none => [])).flatten) = l.filter (fun i => (synth i).isSome) := by
  induction l with
  | nil => rfl
  | cons i l ih =>
    simp only [List.map_cons, List.flatten_cons]
    unfold chunkIndices at *
    rw [List.filterMap_append, ih, List.filter_cons]
    cases h : synth i <;> simp [h]

theorem synthLoop_indices (synth : Nat → Option (List Char)) (total : Nat) :
    chunkIndices (synthLoop synth total)
      = (List.range total).filter (fun i => (synth i).isSome) :=
  synthLoop_indices_aux synth total (List.range total)

/-- C9: a per-unit synthesis failure only skips that unit — the emitted
`audioChunk` events are exactly those of the successful units of
`0..total-1`, attempted in order — and their `chunkIndex` values are strictly
ascending; in particular when unit 1 of 3 fails, units 0 and 2 are still
emitted in that order and no `error` event is produced. -/
theorem audio_chunks_ascending (synth : Nat → Option (List Char)) (total : Nat) :
    chunkIndices (synthLoop synth total)
      = (List.range total).filter (fun i => (synth i).isSome)
    ∧ (chunkIndices (synthLoop synth total)).Pairwise (· < ·)
    ∧ synthLoop (fun i => if i = 1 then none else some ("a".toList)) 3
        = [Ev.audioChunk ("a".toList) 0 3 false, Ev.audioChunk ("a".toList) 2 3 true]
    ∧ Ev.error ∉ synthLoop synth total := by
  refine ⟨synthLoop_indices synth total, ?_, by decide, ?_⟩
  · rw [synthLoop_indices]
    exact (List.pairwise_lt_range total).filter _
  · intro h
    rcases synthLoop_mem h with ⟨a, i, hai⟩
    exact Ev.noConfusion hai

/-! TTS gating (claim C8). -/

theorem chunkTextForTTS_ne_nil (text : List Char) (maxLength : Nat) :
    chunkTextForTTS text maxLength ≠ [] := by
  unfold chunkTextForTTS
  split
  · simp
  · split
    · simp
    · rename_i h
      intro hc
      rw [hc] at h
      exact h rfl

/-- C8 (amended): the TTS block is a no-op when synthesis is not requested or
when the RAW accumulated prose trims to empty (the guard is
`tts && assistantResponse.trim()`, not the sanitized text); otherwise it
emits `ttsLoading` and then ALWAYS emits `ttsChunkInfo` (segmentation yields
at least one unit, and the code tests `textChunks.length > 0`), carrying the
unit count and sanitized length, followed by the per-unit loop — even when
sanitization left nothing or produced exactly one unit. -/
theorem tts_gating (tts : Bool) (resp : List Char) (synth : Nat → Option (List Char)) :
    ((trim resp).isEmpty = true → ttsBlock tts resp synth = [])
    ∧ ttsBlock false resp synth = []
    ∧ ((trim resp).isEmpty = false →
        ttsBlock true resp synth
          = Ev.ttsLoading
            :: Ev.ttsChunkInfo (chunkTextForTTS (cleanTextForTTS resp) 750).length
                (cleanTextForTTS resp).length
            :: synthLoop synth (chunkTextForTTS (cleanTextForTTS resp) 750).length) := by
  refine ⟨?_, ?_, ?_⟩
  · intro h
    unfold ttsBlock
    rw [if_neg (by simp [h])]
  · unfold ttsBlock
    rw [if_neg (by simp)]
  · intro h
    unfold ttsBlock
    rw [if_pos (by simp [h])]
    rw [if_pos (List.length_pos.mpr (chunkTextForTTS_ne_nil (cleanTextForTTS resp) 750))]

/-- C8 counterexample: with accumulated prose `"hi"` segmentation yields
exactly ONE unit yet `ttsChunkInfo` is emitted (the code tests
`textChunks.length > 0`, not `> 1`); and with prose `"****"`, which sanitizes
to the empty string, the block is not a no-op: `ttsLoading` (and more) is
still emitted because the emptiness guard tests the raw prose. -/
theorem tts_chunkinfo_cex :
    (chunkTextForTTS (cleanTextForTTS ("hi".toList)) 750).length = 1
    ∧ Ev.ttsChunkInfo 1 2 ∈ ttsBlock true ("hi".toList) (fun _ => some ("a".toList))
    ∧ (trim (cleanTextForTTS ("****".toList))).isEmpty = true
    ∧ ttsBlock true ("****".toList) (fun _ => some ("a".toList)) ≠ [] := by
  decide

/-- Witness for `tts_gating` at a concrete input. -/
theorem tts_gating_witness :
    (trim ("hi".toList)).isEmpty = false
    ∧ ttsBlock true ("hi".toList) (fun _ => none)
        = Ev.ttsLoading
          :: Ev.ttsChunkInfo (chunkTextForTTS (cleanTextForTTS ("hi".toList)) 750).length
              (cleanTextForTTS ("hi".toList)).length
          :: synthLoop (fun _ => none) (chunkTextForTTS (cleanTextForTTS ("hi".toList)) 750).length :=
  ⟨by decide, (tts_gating true ("hi".toList) (fun _ => none)).2.2 (by decide)⟩

/-! Transcription failure handling (claim C2). -/

/-- C2 (amended): a transcription call that COMPLETES (even with absent or
empty text) degrades softly — the labelled voice-message user turn with the
(possibly empty) transcription is injected and the main streaming call
proceeds, ending in `complete` with no `error` — but a transcription call
that THROWS propagates to the generic catch, which emits a terminal `error`
event and no labelled turn is ever injected. -/
theorem transcription_soft_degradation :
    (∀ (d : List Char) (t : Option (List Char)) (chunks : List Chunk) (tts : Bool)
        (synth : Nat → Option (List Char)),
      newUserTurn (ReqInput.audioMsg d) (TransResult.ok t) = some (transLabel ++ jsOr t [])
      ∧ Ev.error ∉ processEvents (ReqInput.audioMsg d) (TransResult.ok t)
          (GenResult.ok chunks) tts synth
      ∧ (processEvents (ReqInput.audioMsg d) (TransResult.ok t)
          (GenResult.ok chunks) tts synth).getLast? = some Ev.complete)
    ∧ (∀ (d : List Char) (gen : GenResult) (tts : Bool)
        (synth : Nat → Option (List Char)),
      processEvents (ReqInput.audioMsg d) TransResult.threw gen tts synth = [Ev.error]
      ∧ newUserTurn (ReqInput.audioMsg d) TransResult.threw = none) := by
  constructor
  · intro d t chunks tts synth
    exact ⟨rfl, requestEvents_ok_no_error chunks tts synth,
      requestEvents_ok_last chunks tts synth⟩
  · intro d gen tts synth
    exact ⟨rfl, rfl⟩

/-- C2 counterexample: a thrown transcription call terminates the turn with a
terminal `error` event (and no `complete`), contradicting the claim that a
transcription failure never terminates the turn with an error event. -/
theorem transcription_throw_cex :
    processEvents (ReqInput.audioMsg ("QQ".toList)) TransResult.threw
        (GenResult.ok scriptedStream) true (fun _ => some ("a".toList)) = [Ev.error]
    ∧ Ev.complete ∉ processEvents (ReqInput.audioMsg ("QQ".toList)) TransResult.threw
        (GenResult.ok scriptedStream) true (fun _ => some ("a".toList)) := by
  constructor
  · rfl
  · intro h
    simp only [processEvents, List.mem_singleton] at h
    exact Ev.noConfusion h

/-! Session transcript append and truncation (claim C5). -/

inductive Role
  | user
  | model
  deriving DecidableEq, Repr

/-- An element of `ChatHistory.messages` (`script.js` lines 839-843). -/
structure ChatMessage where
  role : Role
  content : List Char
  timestamp : Nat
  deriving DecidableEq, Repr

/-- `if (chatHistory.messages.length > 20) chatHistory.messages =
chatHistory.messages.slice(-20)` (lines 1276-1278). -/
def truncate20 (l : List ChatMessage) : List ChatMessage :=
  if 20 < l.length then l.drop (l.length - 20) else l

/-- The end-of-turn persistence step in the request's `finally` block (lines
1258-1282): if a nonempty (after `trim`) model response was accumulated, push
the user entry and the model entry together, then truncate; otherwise nothing
is appended. -/
def finalizeTurn (resp : List Char) (msgs : List ChatMessage)
    (userContent : List Char) (ts1 ts2 : Nat) : List ChatMessage :=
  if (trim resp).isEmpty then msgs
  else truncate20
    (msgs ++ [⟨Role.user, userContent, ts1⟩, ⟨Role.model, trim resp, ts2⟩])

theorem truncate20_length (l : List ChatMessage) : (truncate20 l).length ≤ 20 := by
  unfold truncate20
  split
  · rename_i hc
    simp only [List.length_drop]
    omega
  · rename_i hc
    omega

theorem truncate20_suffix (l : List ChatMessage) : truncate20 l <:+ l := by
  unfold truncate20
  split
  · exact List.drop_suffix _ l
  · exact List.suffix_refl l

/-- C5: after the end-of-turn append plus truncation the transcript has at
most 20 messages, the surviving messages are a suffix of the old transcript
followed by the new pair (so their relative order is the chronological one
and only the oldest are dropped, from the front), and the user entry and the
model entry are appended together at the end — and when the accumulated
response trims to empty, nothing at all is appended (never one of the two). -/
theorem append_truncate_bound (resp : List Char) (msgs : List ChatMessage)
    (uc : List Char) (ts1 ts2 : Nat) :
    ((trim resp).isEmpty = true → finalizeTurn resp msgs uc ts1 ts2 = msgs)
    ∧ ((trim resp).isEmpty = false →
        (finalizeTurn resp msgs uc ts1 ts2).length ≤ 20
        ∧ finalizeTurn resp msgs uc ts1 ts2 <:+
            msgs ++ [⟨Role.user, uc, ts1⟩, ⟨Role.model, trim resp, ts2⟩]
        ∧ ∃ pre, finalizeTurn resp msgs uc ts1 ts2
            = pre ++ [⟨Role.user, uc, ts1⟩, ⟨Role.model, trim resp, ts2⟩]) := by
  constructor
  · intro h
    unfold finalizeTurn
    rw [if_pos h]
  · intro h
    unfold finalizeTurn
    rw [if_neg (by rw [h]; decide)]
    refine ⟨truncate20_length _, truncate20_suffix _, ?_⟩
    unfold truncate20
    split
    · rw [List.drop_append_eq_append_drop]
      have hlen : (msgs ++ [(⟨Role.user, uc, ts1⟩ : ChatMessage),
          ⟨Role.model, trim resp, ts2⟩]).length = msgs.length + 2 := by
        simp
      rw [hlen]
      have hdrop0 : msgs.length + 2 - 20 - msgs.length = 0 := by omega
      rw [hdrop0, List.drop_zero]
      exact ⟨_, rfl⟩
    · exact ⟨msgs, rfl⟩

/-- Witness for `append_truncate_bound` at a concrete input (a transcript
already holding 20 messages). -/
theorem append_truncate_bound_witness :
    ((trim ("ok".toList)).isEmpty = false)
    ∧ ((finalizeTurn ("ok".toList)
          (List.replicate 20 ⟨Role.user, "old".toList, 0⟩) ("q".toList) 5 6).length ≤ 20
    ∧ finalizeTurn ("ok".toList)
          (List.replicate 20 ⟨Role.user, "old".toList, 0⟩) ("q".toList) 5 6 <:+
        List.replicate 20 ⟨Role.user, "old".toList, 0⟩
          ++ [⟨Role.user, "q".toList, 5⟩, ⟨Role.model, trim ("ok".toList), 6⟩]
    ∧ ∃ pre, finalizeTurn ("ok".toList)
          (List.replicate 20 ⟨Role.user, "old".toList, 0⟩) ("q".toList) 5 6
        = pre ++ [⟨Role.user, "q".toList, 5⟩, ⟨Role.model, trim ("ok".toList), 6⟩]) :=
  ⟨by decide,
   (append_truncate_bound ("ok".toList) (List.replicate 20 ⟨Role.user, "old".toList, 0⟩)
      ("q".toList) 5 6).2 (by decide)⟩

/-!
Debounced write-behind persistence (claim C3): model of the module state
`saveQueue` / `historyCache` and of `saveChatHistoryOptimized`
(`src/public/script.js` lines 946-1034), together with timer firing.
-/

/-- `ChatHistory` (lines 845-850). -/
structure ChatHistory where
  sessionId : List Char
  messages : List ChatMessage
  createdAt : Nat
  lastUpdated : Nat
  deriving DecidableEq, Repr

/-- The cache key `` `chat_${sessionId}` ``. -/
def cacheKeyOf (sid : List Char) : List Char := "chat_".toList ++ sid

/-- Assoc-list lookup modelling `Map.get`. -/
def lookupKey {α : Type} : List (List Char × α) → List Char → Option α
  | [], _ => none
  | (k1, v) :: rest, k => if k1 = k then some v else lookupKey rest k

/-- Assoc-list update modelling `Map.set` (replace in place, or append). -/
def setKey {α : Type} : List (List Char × α) → List Char → α → List (List Char × α)
  | [], k, v => [(k, v)]
  | (k1, v1) :: rest, k, v =>
    if k1 = k then (k, v) :: rest else (k1, v1) :: setKey rest k v

/-- Assoc-list removal modelling `Map.delete`. -/
def eraseKey {α : Type} : List (List Char × α) → List Char → List (List Char × α)
  | [], _ => []
  | (k1, v1) :: rest, k => if k1 = k then rest else (k1, v1) :: eraseKey rest k

/-- One armed `setTimeout` callback of `saveChatHistoryOptimized`: its cache
key and captured history, whether `clearTimeout` was called on it, and
whether it has already fired. -/
structure TimerEntry where
  key : List Char
  hist : ChatHistory
  cancelled : Bool
  fired : Bool
  deriving DecidableEq, Repr

/-- Process-local persistence state: every timer ever armed (its index is its
id), the `saveQueue` map (cache key → pending timer id), the `historyCache`
(cache key → history and refresh time), and the durable writes performed so
far, in order. -/
structure PersistState where
  timers : List TimerEntry
  queue : List (List Char × Nat)
  cache : List (List Char × (ChatHistory × Nat))
  writes : List (List Char × ChatHistory)
  deriving DecidableEq, Repr

def initPersist : PersistState := ⟨[], [], [], []⟩

/-- Timer-table access by id. -/
def getIdx : List TimerEntry → Nat → Option TimerEntry
  | [], _ => none
  | e :: _, 0 => some e
  | _ :: rest, n + 1 => getIdx rest n

/-- Timer-table update by id. -/
def setIdx : List TimerEntry → Nat → TimerEntry → List TimerEntry
  | [], _, _ => []
  | _ :: rest, 0, e => e :: rest
  | x :: rest, n + 1, e => x :: setIdx rest n e

/-- Model of `saveChatHistoryOptimized(kv, history)` (lines 1006-1034): if a
timer for this key is registered in `saveQueue`, `clearTimeout` it; update
`historyCache` immediately; arm a fresh timer and register it in `saveQueue`.
`kv` is whether the KV binding is configured (`if (!kv) return`). -/
def schedulePersist (kv : Bool) (st : PersistState) (h : ChatHistory) (now : Nat) :
    PersistState :=
  if kv then
    let key := cacheKeyOf h.sessionId
    let timers1 :=
      match lookupKey st.queue key with
      | some tid =>
        match getIdx st.timers tid with
        | some e => setIdx st.timers tid { e with cancelled := true }
        | none => st.timers
      | none => st.timers
    { timers := timers1 ++ [{ key := key, hist := h, cancelled := false, fired := false }]
      queue := setKey st.queue key timers1.length
      cache := setKey st.cache key (h, now)
      writes := st.writes }
  else st

/-- Model of one timer firing (the `setTimeout` callback, lines 1021-1031): a
cancelled or already-fired timer does nothing; otherwise the captured history
is durably written with refreshed `lastUpdated` and the `saveQueue` entry of
the key is deleted.  (The `kv.put` / `saveQueue.delete` pair is modelled as
one atomic step; `kv.put` failures, logged and swallowed by the source, are
not modelled.) -/
def fireTimer (st : PersistState) (i : Nat) (now : Nat) : PersistState :=
  match getIdx st.timers i with
  | some e =>
    if e.cancelled || e.fired then st
    else
      { timers := setIdx st.timers i { e with fired := true }
        queue := eraseKey st.queue e.key
        cache := st.cache
        writes := st.writes ++ [(e.key, { e.hist with lastUpdated := now })] }
  | none => st

/-- Fire every armed timer, in arming order (all debounce delays equal one
second, so timers fire in arming order). -/
def fireAll (st : PersistState) (now : Nat) : PersistState :=
  (List.range st.timers.length).foldl (fun s i => fireTimer s i now) st

/-- A pending timer: armed, not cancelled, not yet fired. -/
def live (e : TimerEntry) : Prop := e.cancelled = false ∧ e.fired = false

/-- Well-formedness: every pending timer is exactly the one registered in
`saveQueue` under its key. -/
def WFState (st : PersistState) : Prop :=
  ∀ i e, getIdx st.timers i = some e → live e → lookupKey st.queue e.key = some i

/-! Index and assoc-list lemmas for the persistence model. -/

theorem getIdx_lt_length {l : List TimerEntry} {i : Nat} {e : TimerEntry}
    (h : getIdx l i = some e) : i < l.length := by
  induction l generalizing i with
  | nil => exact Option.noConfusion h
  | cons x rest ih =>
    cases i with
    | zero => simp
    | succ n => exact Nat.succ_lt_succ (ih h)

theorem getIdx_append_left {l l2 : List TimerEntry} {i : Nat}
    (h : i < l.length) : getIdx (l ++ l2) i = getIdx l i := by
  induction l generalizing i with
  | nil => exact absurd h (by simp)
  | cons x rest ih =>
    cases i with
    | zero => rfl
    | succ n => exact ih (Nat.lt_of_succ_lt_succ h)

theorem getIdx_append_self (l : List TimerEntry) (e : TimerEntry) :
    getIdx (l ++ [e]) l.length = some e := by
  induction l with
  | nil => rfl
  | cons x rest ih => exact ih

theorem getIdx_append_cases {l : List TimerEntry} {x : TimerEntry} {i : Nat}
    {e : TimerEntry} (h : getIdx (l ++ [x]) i = some e) :
    (i < l.length ∧ getIdx l i = some e) ∨ (i = l.length ∧ e = x) := by
  have hlt : i < l.length + 1 := by
    have := getIdx_lt_length h
    simpa using this
  rcases Nat.lt_or_ge i l.length with hi | hi
  · left
    refine ⟨hi, ?_⟩
    rw [getIdx_append_left hi] at h
    exact h
  · right
    have hieq : i = l.length := by omega
    subst hieq
    rw [getIdx_append_self] at h
    exact ⟨rfl, (Option.some.injEq _ _).mp h.symm⟩

theorem getIdx_setIdx_self {l : List TimerEntry} {i : Nat} {e : TimerEntry}
    (h : getIdx l i = some e) (x : TimerEntry) : getIdx (setIdx l i x) i = some x := by
  induction l generalizing i with
  | nil => exact Option.noConfusion h
  | cons a rest ih =>
    cases i with
    | zero => rfl
    | succ n => exact ih h

theorem getIdx_setIdx_ne (l : List TimerEntry) {i j : Nat} (hij : i ≠ j)
    (x : TimerEntry) : getIdx (setIdx l i x) j = getIdx l j := by
  induction l generalizing i j with
  | nil => cases i <;> rfl
  | cons a rest ih =>
    cases i with
    | zero =>
      cases j with
      | zero => exact absurd rfl hij
      | succ m => rfl
    | succ n =>
      cases j with
      | zero => rfl
      | succ m =>
        exact ih (fun hc => hij (by rw [hc]))

theorem setIdx_length (l : List TimerEntry) (i : Nat) (x : TimerEntry) :
    (setIdx l i x).length = l.length := by
  induction l generalizing i with
  | nil => rfl
  | cons a rest ih =>
    cases i with
    | zero => rfl
    | succ n =>
      simp only [setIdx, List.length_cons]
      rw [ih n]

theorem lookupKey_setKey_self {α : Type} (q : List (List Char × α)) (k : List Char)
    (v : α) : lookupKey (setKey q k v) k = some v := by
  induction q with
  | nil => simp [setKey, lookupKey]
  | cons p rest ih =>
    rcases p with ⟨pk, pv⟩
    by_cases hp : pk = k
    · subst hp
      simp [setKey, lookupKey]
    · simp [setKey, hp, lookupKey, ih]

theorem lookupKey_setKey_ne {α : Type} (q : List (List Char × α)) {k1 k : List Char}
    (hne : k1 ≠ k) (v : α) : lookupKey (setKey q k v) k1 = lookupKey q k1 := by
  induction q with
  | nil => simp [setKey, lookupKey, Ne.symm hne]
  | cons p rest ih =>
    rcases p with ⟨pk, pv⟩
    by_cases hp : pk = k
    · subst hp
      simp [setKey, lookupKey, Ne.symm hne]
    · by_cases hpk1 : pk = k1
      · subst hpk1
        simp [setKey, hp, lookupKey]
      · simp [setKey, hp, lookupKey, hpk1, ih]

theorem lookupKey_eraseKey_ne {α : Type} (q : List (List Char × α)) {k1 k : List Char}
    (hne : k1 ≠ k) : lookupKey (eraseKey q k) k1 = lookupKey q k1 := by
  induction q with
  | nil => rfl
  | cons p rest ih =>
    rcases p with ⟨pk, pv⟩
    by_cases hp : pk = k
    · subst hp
      simp [eraseKey, lookupKey, Ne.symm hne]
    · by_cases hpk1 : pk = k1
      · subst hpk1
        simp [eraseKey, hp, lookupKey]
      · simp [eraseKey, hp, lookupKey, hpk1, ih]

/-! Preservation of well-formedness (claim C3). -/

theorem WF_schedulePersist {st : PersistState} (hwf : WFState st) (kv : Bool)
    (h : ChatHistory) (now : Nat) : WFState (schedulePersist kv st h now) := by
  cases kv with
  | false => exact hwf
  | true =>
    rcases hq : lookupKey st.queue (cacheKeyOf h.sessionId) with _ | tid
    · intro i e hget hlive
      simp only [schedulePersist, if_true, hq] at hget ⊢
      rcases getIdx_append_cases hget with ⟨hi, hgi⟩ | ⟨hi, hei⟩
      · have hk := hwf i e hgi hlive
        by_cases hek : e.key = cacheKeyOf h.sessionId
        · rw [hek] at hk
          rw [hk] at hq
          exact Option.noConfusion hq
        · rw [lookupKey_setKey_ne _ hek]
          exact hk
      · subst hei
        subst hi
        exact lookupKey_setKey_self _ _ _
    · rcases hg : getIdx st.timers tid with _ | e0
      · intro i e hget hlive
        simp only [schedulePersist, if_true, hq, hg] at hget ⊢
        rcases getIdx_append_cases hget with ⟨hi, hgi⟩ | ⟨hi, hei⟩
        · have hk := hwf i e hgi hlive
          by_cases hek : e.key = cacheKeyOf h.sessionId
          · rw [hek] at hk
            rw [hk] at hq
            have : i = tid := by
              injection hq
            subst this
            rw [hg] at hgi
            exact Option.noConfusion hgi
          · rw [lookupKey_setKey_ne _ hek]
            exact hk
        · subst hei
          subst hi
          exact lookupKey_setKey_self _ _ _
      · intro i e hget hlive
        simp only [schedulePersist, if_true, hq, hg] at hget ⊢
        rcases getIdx_append_cases hget with ⟨hi, hgi⟩ | ⟨hi, hei⟩
        · by_cases hit : tid = i
          · subst hit
            rw [getIdx_setIdx_self hg] at hgi
            injection hgi with hgi2
            rw [← hgi2] at hlive
            exact absurd hlive.1 (by simp)
          · rw [getIdx_setIdx_ne _ hit] at hgi
            have hk := hwf i e hgi hlive
            by_cases hek : e.key = cacheKeyOf h.sessionId
            · rw [hek] at hk
              rw [hk] at hq
              have : i = tid := by
                injection hq
              exact absurd this.symm hit
            · rw [lookupKey_setKey_ne _ hek]
              exact hk
        · subst hei
          subst hi
          exact lookupKey_setKey_self _ _ _

theorem WF_fireTimer {st : PersistState} (hwf : WFState st) (i : Nat) (now : Nat) :
    WFState (fireTimer st i now) := by
  rcases hg : getIdx st.timers i with _ | e
  · intro j ej hget hlive
    simp only [fireTimer, hg] at hget ⊢
    exact hwf j ej hget hlive
  · by_cases hcf : (e.cancelled || e.fired) = true
    · intro j ej hget hlive
      simp only [fireTimer, hg, hcf, if_true] at hget ⊢
      exact hwf j ej hget hlive
    · have hec : e.cancelled = false ∧ e.fired = false := by
        constructor
        · cases hc : e.cancelled
          · rfl
          · exact absurd (by simp [hc]) hcf
        · cases hf : e.fired
          · rfl
          · exact absurd (by simp [hf]) hcf
      intro j ej hget hlive
      simp only [fireTimer, hg, hcf, Bool.false_eq_true, if_false] at hget ⊢
      by_cases hij : i = j
      · subst hij
        rw [getIdx_setIdx_self hg] at hget
        injection hget with hget2
        rw [← hget2] at hlive
        exact absurd hlive.2 (by simp)
      · rw [getIdx_setIdx_ne _ hij] at hget
        have hk := hwf j ej hget hlive
        by_cases hek : ej.key = e.key
        · have hk0 := hwf i e hg ⟨hec.1, hec.2⟩
          rw [hek] at hk
          rw [hk] at hk0
          have : j = i := by
            injection hk0
          exact absurd this.symm hij
        · rw [lookupKey_eraseKey_ne _ hek]
          exact hk

theorem WF_at_most_one {st : PersistState} (hwf : WFState st) :
    ∀ i j ei ej, getIdx st.timers i = some ei → getIdx st.timers j = some ej →
      live ei → live ej → ei.key = ej.key → i = j := by
  intro i j ei ej hi hj hli hlj hkey
  have h1 := hwf i ei hi hli
  have h2 := hwf j ej hj hlj
  rw [hkey] at h1
  rw [h1] at h2
  injection h2

theorem debounce_scenario (sid : List Char) (m1 m2 : List ChatMessage)
    (c1 c2 l1 l2 now : Nat) :
    (fireAll (schedulePersist true (schedulePersist true initPersist
        ⟨sid, m1, c1, l1⟩ 0) ⟨sid, m2, c2, l2⟩ 0) now).writes
      = [(cacheKeyOf sid, ⟨sid, m2, c2, now⟩)] := by
  have h1 : schedulePersist true initPersist ⟨sid, m1, c1, l1⟩ 0
      = ⟨[⟨cacheKeyOf sid, ⟨sid, m1, c1, l1⟩, false, false⟩],
         [(cacheKeyOf sid, 0)],
         [(cacheKeyOf sid, (⟨sid, m1, c1, l1⟩, 0))], []⟩ := rfl
  rw [h1]
  have h2 : schedulePersist true
      (⟨[⟨cacheKeyOf sid, ⟨sid, m1, c1, l1⟩, false, false⟩],
         [(cacheKeyOf sid, 0)],
         [(cacheKeyOf sid, (⟨sid, m1, c1, l1⟩, 0))], []⟩ : PersistState)
      ⟨sid, m2, c2, l2⟩ 0
      = ⟨[⟨cacheKeyOf sid, ⟨sid, m1, c1, l1⟩, true, false⟩,
          ⟨cacheKeyOf sid, ⟨sid, m2, c2, l2⟩, false, false⟩],
         [(cacheKeyOf sid, 1)],
         [(cacheKeyOf sid, (⟨sid, m2, c2, l2⟩, 0))], []⟩ := by
    simp [schedulePersist, lookupKey, getIdx, setIdx, setKey]
  rw [h2]
  simp [fireAll, List.range_succ, fireTimer, getIdx, setIdx, eraseKey, List.foldl]

/-- C3: (a) from any well-formed persistence state, `schedulePersist` and a
timer firing preserve well-formedness, and well-formedness entails that at
most one pending (armed, neither cancelled nor fired) write timer exists per
session key; (b) calling `schedulePersist` twice in rapid succession (before
any timer fires) for the same `sessionId` and then letting all timers fire
produces exactly one durable write, carrying the second (latest) transcript
state — the first timer was cancelled and never writes. -/
theorem debounce_single_write :
    (∀ (st : PersistState) (kv : Bool) (h : ChatHistory) (now i nowf : Nat),
      WFState st →
        WFState (schedulePersist kv st h now)
        ∧ WFState (fireTimer st i nowf)
        ∧ (∀ j k ej ek, getIdx st.timers j = some ej → getIdx st.timers k = some ek →
            live ej → live ek → ej.key = ek.key → j = k))
    ∧ (∀ (sid : List Char) (m1 m2 : List ChatMessage) (c1 c2 l1 l2 now : Nat),
      (fireAll (schedulePersist true (schedulePersist true initPersist
          ⟨sid, m1, c1, l1⟩ 0) ⟨sid, m2, c2, l2⟩ 0) now).writes
        = [(cacheKeyOf sid, ⟨sid, m2, c2, now⟩)]) :=
  ⟨fun _ kv h now i nowf hwf =>
    ⟨WF_schedulePersist hwf kv h now, WF_fireTimer hwf i nowf, WF_at_most_one hwf⟩,
   debounce_scenario⟩

/-- Witness for `debounce_single_write` at a concrete state and inputs. -/
theorem debounce_single_write_witness :
    WFState (schedulePersist true initPersist ⟨"s".toList, [], 0, 0⟩ 0)
    ∧ (fireAll (schedulePersist true (schedulePersist true initPersist
        ⟨"s".toList, [], 0, 1⟩ 0) ⟨"s".toList, [], 0, 2⟩ 0) 9).writes
      = [(cacheKeyOf "s".toList, ⟨"s".toList, [], 0, 9⟩)] :=
  ⟨(debounce_single_write.1 initPersist true ⟨"s".toList, [], 0, 0⟩ 0 0 0
      (fun _ _ hg _ => Option.noConfusion hg)).1,
   debounce_single_write.2 "s".toList [] [] 0 0 1 2 9⟩
